import Mathlib

/-!
Shallow embedding of the control algorithms of `stable_whisper/alignment.py`:
the windowing controller of `align`, the bisection refinement engine of
`refine`, and the phrase-localization loop of `locate`.

Python integers are modelled by `ℤ`/`ℕ`, float probabilities and timestamps by
`ℚ`, and the IEEE-754 non-finite values that a float division can produce by
the explicit type `FVal`.  Python's `round` (round-half-to-even) is modelled by
`roundHalfEven`/`halfRoundI`.
-/

/-- Frames per second of the mel spectrogram (`whisper.audio.FRAMES_PER_SECOND`,
`= SAMPLE_RATE / HOP_LENGTH = 16000 / 160`). -/
def FRAMES_PER_SECOND : ℕ := 100

/-- Audio sample rate (`whisper.audio.SAMPLE_RATE`). -/
def SAMPLE_RATE : ℤ := 16000

/-- Samples of one 30 s chunk (`CHUNK_SAMPLES = round(CHUNK_LENGTH * SAMPLE_RATE)`). -/
def CHUNK_SAMPLES : ℤ := 480000

/-- Floor of a rational, written so that it evaluates by arithmetic on
numerator and denominator. -/
def ratFloor (q : ℚ) : ℤ := q.num / (q.den : ℤ)

/-- Python's built-in `round` on a rational value: round half to even. -/
def roundHalfEven (q : ℚ) : ℤ :=
  if q - (ratFloor q : ℚ) < 1/2 then ratFloor q
  else if (1/2 : ℚ) < q - (ratFloor q : ℚ) then ratFloor q + 1
  else if ratFloor q % 2 = 0 then ratFloor q else ratFloor q + 1

/-- Python's `round(x, 3)`: round half to even at three decimals. -/
def round3 (q : ℚ) : ℚ := (roundHalfEven (q * 1000) : ℚ) / 1000

/-- `round(n / 2)` for an integer `n`, as Python computes it: the quotient of an
even `n`, and the even neighbour of `n / 2` for an odd `n` (round half to even). -/
def halfRoundI (n : ℤ) : ℤ :=
  if n % 2 = 0 then n / 2
  else if (n / 2) % 2 = 0 then n / 2 else n / 2 + 1

/-- Value of a float expression: either a finite rational or one of the
IEEE-754 non-finite values that `numpy` produces on division by zero. -/
inductive FVal where
  | fin : ℚ → FVal
  | nan : FVal
  | pinf : FVal
  | ninf : FVal
deriving DecidableEq

/-- Float division `a / b` as `numpy` performs it: division by zero yields
`nan` (for `0 / 0`) or a signed infinity, never an exception. -/
def fdiv (a b : ℚ) : FVal :=
  if b = 0 then (if a = 0 then FVal.nan else if 0 < a then FVal.pinf else FVal.ninf)
  else FVal.fin (a / b)

/-- The comparison `v > c` under IEEE-754 semantics: any comparison with `nan`
is false, `+inf` exceeds everything, `-inf` exceeds nothing. -/
def FVal.gtb : FVal → ℚ → Bool
  | FVal.fin q, c => decide (c < q)
  | FVal.nan, _ => false
  | FVal.pinf, _ => true
  | FVal.ninf, _ => false

/-- The keyword arguments of `refine` used by the bisection engine, together
with the derived `frame_precision`. -/
structure RefineParams where
  abs_prob_decrease : ℚ
  rel_prob_decrease : ℚ
  rel_rel_prob_decrease : Option ℚ
  prob_threshold : ℚ
  frame_precision : ℕ
deriving DecidableEq

/-- `frame_precision = max(round(precision * FRAMES_PER_SECOND), 2)`
(alignment.py line 441). -/
def framePrecision (precision : ℚ) : ℕ :=
  max (roundHalfEven (precision * (FRAMES_PER_SECOND : ℚ))).toNat 2

/-- The `failed_requirements` expression of `_refine` (alignment.py lines
638-644), evaluated on the diffs the loop computes: `abs_diff = orig - prob`,
`rel_diff = abs_diff / orig`, `rel_change_diff = (prev - prob) / prev`, under
float semantics (`fdiv`, `FVal.gtb`). -/
def failedRequirements (p : RefineParams) (origProb prevProb prob : ℚ)
    (bestTksChanged : Bool) : Bool :=
  decide (p.abs_prob_decrease < origProb - prob) ||
  FVal.gtb (fdiv (origProb - prob) origProb) p.rel_prob_decrease ||
  (match p.rel_rel_prob_decrease with
   | some rr => FVal.gtb (fdiv (prevProb - prob) prevProb) rr
   | none => false) ||
  decide (prob < p.prob_threshold) ||
  bestTksChanged

/-- Per-word, per-endpoint state of the bisection loop: the row
`min/mid/max` of the frame-index arrays at one word index, the `is_finish`
flag, and the word's row of the `changes` array (`changes[idx,0]` = some probe
failed, `changes[idx,1]` = some probe was accepted, `changes[idx,-1]` = last
recorded midpoint, `-1` when none). -/
structure WordState where
  bmin : ℤ
  bmax : ℤ
  bmid : ℤ
  finished : Bool
  changeFailed : Bool
  changeAccepted : Bool
  lastMid : ℤ
deriving DecidableEq

/-- The mutation performed on the muted mel row by one bisection iteration:
restore a frame range from the original spectrogram, zero a frame range, or
leave it unchanged. -/
inductive MelAction where
  | noop : MelAction
  | restore : ℤ → ℤ → MelAction
  | zero : ℤ → ℤ → MelAction
deriving DecidableEq

/-- Bound update of one bisection iteration (alignment.py lines 646-657): on a
failed probe the opposite bound moves inward to the midpoint, on an accepted
probe the probing bound moves to the midpoint. -/
def newBounds (isEnd failed : Bool) (st : WordState) : ℤ × ℤ :=
  if failed then (if isEnd then (st.bmid, st.bmax) else (st.bmin, st.bmid))
  else (if isEnd then (st.bmin, st.bmid) else (st.bmid, st.bmax))

/-- One iteration of the bisection loop body for one word endpoint
(alignment.py lines 629-683), with the accept/reject decision already
evaluated to `failed`.  Mirrors the source exactly: the `changes` flags are set
before the precision test; when `new_mid_change < frame_precision` the word
finishes and the bound arrays are left untouched; otherwise the bounds and the
midpoint are updated, the mel row is restored (rejected probe) or further
zeroed (accepted probe), and the midpoint is recorded in `changes[idx,-1]`
unless the best token's rank regressed. -/
def refineStepCore (fp : ℕ) (isEnd failed btc : Bool) (st : WordState) :
    WordState × MelAction :=
  if st.finished then (st, MelAction.noop)
  else
    let nb := newBounds isEnd failed st
    let nmc := halfRoundI (nb.2 - nb.1)
    if nmc < (fp : ℤ) then
      ({ st with finished := true, changeFailed := st.changeFailed || failed,
                 changeAccepted := st.changeAccepted || !failed }, MelAction.noop)
    else
      ({ bmin := nb.1, bmax := nb.2, bmid := nb.1 + nmc, finished := false,
         changeFailed := st.changeFailed || failed,
         changeAccepted := st.changeAccepted || !failed,
         lastMid := if btc then st.lastMid else nb.1 + nmc },
       if failed then
         (if isEnd then MelAction.restore nb.1 (nb.1 + nmc)
          else MelAction.restore (nb.1 + nmc) nb.2)
       else
         (if isEnd then MelAction.zero (nb.1 + nmc) nb.2
          else MelAction.zero nb.1 (nb.1 + nmc)))

/-- One iteration of the bisection loop body, with the accept/reject decision
computed by `failed_requirements` from the probabilities the loop measured:
`origProb` is the current content of the (mutated) `orig_probs` slot,
`prevProb` the content of `prev_probs`, `prob` the probability of this probe,
`btc` whether the target token's rank regressed versus the baseline. -/
def refineStep (p : RefineParams) (isEnd : Bool) (st : WordState)
    (origProb prevProb prob : ℚ) (btc : Bool) : WordState × MelAction :=
  refineStepCore p.frame_precision isEnd
    (failedRequirements p origProb prevProb prob btc) btc st

/-- The `while not np.all(is_finish)` loop of `_refine` restricted to one word
endpooint, threading the reference slots exactly as the source does:
`prev_probs` is rebound to this iteration's probabilities unconditionally
(line 626), while `new_probs[idx] = prob` (line 683) writes this iteration's
probability into the shared `orig_probs` array only when the word continues.
The oracle supplies the measured probability and rank-regression flag of each
iteration (they come from model inference).  Returns the number of iterations
executed for this word and its final state; `fuel` bounds the recursion. -/
def refineLoop (p : RefineParams) (isEnd : Bool) (oracle : ℕ → ℚ × Bool) :
    ℕ → ℕ → WordState → ℚ → ℚ → ℕ × WordState
  | 0, _, st, _, _ => (0, st)
  | fuel + 1, i, st, origProb, prevProb =>
    if st.finished then (0, st)
    else
      let ob := oracle i
      let st' := (refineStep p isEnd st origProb prevProb ob.1 ob.2).1
      let r := refineLoop p isEnd oracle fuel (i + 1) st'
        (if st'.finished then origProb else ob.1) ob.1
      (r.1 + 1, r.2)

/-- The same loop as `refineLoop`, run for exactly `n` iterations so that
intermediate states are observable: returns the word state together with the
contents of the `orig_probs` and `prev_probs` slots for this word. -/
def refineLoopSteps (p : RefineParams) (isEnd : Bool) (oracle : ℕ → ℚ × Bool) :
    ℕ → ℕ → WordState × ℚ × ℚ → WordState × ℚ × ℚ
  | 0, _, s => s
  | n + 1, i, (st, origProb, prevProb) =>
    if st.finished then (st, origProb, prevProb)
    else
      let ob := oracle i
      let st' := (refineStep p isEnd st origProb prevProb ob.1 ob.2).1
      refineLoopSteps p isEnd oracle n (i + 1)
        (st', (if st'.finished then origProb else ob.1), ob.1)

/-- Timestamps and probability of one word of the result. -/
structure WordTs where
  start : ℚ
  «end» : ℚ
  probability : ℚ
deriving DecidableEq

/-- The `update_ts` closure of `_refine` (alignment.py lines 568-589), for the
word state at one index.  Returns `some v` when the source assigns
`words[idx].start = v` (or `.end = v`), and `none` when it returns without
assigning.  The source returns early unless the word just finished with a
recorded candidate; when every probe failed and none was accepted it keeps the
candidate only if it moves the start earlier / the end later; and it returns
before the assignment whenever `verbose` is falsy. -/
def update_ts (verbose isEnd : Bool) (timeOffset : ℚ) (st : WordState)
    (w : WordTs) : Option ℚ :=
  if st.finished = false ∨ st.lastMid = -1 then none
  else
    let newTs := round3 (timeOffset + (st.lastMid : ℚ) / (FRAMES_PER_SECOND : ℚ))
    if st.changeFailed = true ∧ st.changeAccepted = false ∧
        (if isEnd then newTs ≤ w.«end» else w.start ≤ newTs) then none
    else if verbose = false then none
    else some newTs

/-- The `get_curr_words` loop body of `align` (alignment.py lines 207-218) on
the token counts of the pending words: pop words while the running token count
stays within `token_step`, except that the first word is always popped. -/
def getCurrWordsAux (tokenStep : ℕ) : ℕ → Bool → List ℕ → List ℕ
  | _, _, [] => []
  | currTkCount, nonempty, c :: rest =>
    if tokenStep < currTkCount + c ∧ nonempty = true then []
    else c :: getCurrWordsAux tokenStep (currTkCount + c) true rest

/-- `get_curr_words` of `align`: the token counts of the words selected for the
next extraction request, given the token counts of the pending-word queue. -/
def get_curr_words (tokenStep : ℕ) (counts : List ℕ) : List ℕ :=
  getCurrWordsAux tokenStep 0 false counts

/-- The `token_step` validation of `align` (alignment.py lines 162-166):
a non-positive `token_step` is replaced by `n_text_ctx - 6`, a `token_step`
above that maximum raises `ValueError`, anything else is kept. -/
def alignTokenStepCheck (nTextCtx tokenStep : ℤ) : Except (ℤ × ℤ) ℤ :=
  if tokenStep < 1 then Except.ok (nTextCtx - 6)
  else if nTextCtx - 6 < tokenStep then Except.error (nTextCtx - 6, tokenStep)
  else Except.ok tokenStep

/-- Whether an `alignTokenStepCheck` outcome is the `ValueError`. -/
def isValueError {α : Type} (e : Except (ℤ × ℤ) α) : Bool :=
  match e with
  | Except.error _ => true
  | Except.ok _ => false

/-- Cursor state of the mode-2 (coarse-only) search loop of `locate`. -/
structure Mode2State where
  seekSample : ℤ
  found : ℕ
  prevTargetEnd : Option ℚ
deriving DecidableEq

/-- The mode-2 branch of `_locate` (alignment.py lines 900-914): every probe
counts as a find and returns `target_end + seek`; the cursor jumps to the end
of the audio when the chunk already reaches the end, the match cap is reached,
or the estimate repeats, and otherwise advances by `round(target_end *
SAMPLE_RATE)` samples. -/
def locateMode2Step (totalSamples : ℤ) (count : ℕ) (st : Mode2State)
    (targetEnd : ℚ) : Mode2State × ℚ :=
  let seek := round3 ((st.seekSample : ℚ) / (SAMPLE_RATE : ℚ))
  let found := st.found + 1
  let seekSample :=
    if totalSamples ≤ st.seekSample + CHUNK_SAMPLES ∨
        (count ≠ 0 ∧ count ≤ found) ∨ st.prevTargetEnd = some targetEnd then
      totalSamples
    else st.seekSample + roundHalfEven (targetEnd * (SAMPLE_RATE : ℚ))
  (⟨seekSample, found, some targetEnd⟩, targetEnd + seek)

/-- Control state of the confirmation-decode loop of `_locate`: the
consecutive-terminator counter `curr_eots`, the number of predictions emitted
so far, the `not_end` flag and the `found_target` flag. -/
structure DecodeState where
  currEots : ℕ
  predLen : ℕ
  notEnd : Bool
  foundTarget : Bool
deriving DecidableEq

/-- One iteration of the confirmation-decode loop of `_locate` (alignment.py
lines 934-1006) restricted to its control state.  `accepted` says whether the
accept branch fired (the probed target token cleared the threshold, matched
the arg-max, or the string matched), `bestIsEot` whether the decoder's best
token is the terminator, `nowFound` whether the accept branch set
`found_target`.  The accept branch is only reachable while the target has not
been found (`target_word_prob` is `None` afterwards).  A prediction is
appended in every iteration, and the loop also ends once the prediction count
exceeds `max_token_per_seg`. -/
def locateDecodeStep (eots maxTokenPerSeg : ℕ) (st : DecodeState)
    (accepted bestIsEot nowFound : Bool) : DecodeState :=
  let acc := accepted && !st.foundTarget
  let haltEot := !acc && bestIsEot && (decide (eots ≤ st.currEots) || st.foundTarget)
  let currEots :=
    if acc = true then 0
    else if bestIsEot = true then
      (if eots ≤ st.currEots ∨ st.foundTarget = true then st.currEots
       else st.currEots + 1)
    else 0
  let predLen := st.predLen + 1
  ⟨currEots, predLen, !haltEot && !(decide (maxTokenPerSeg < predLen)),
    st.foundTarget || (acc && nowFound)⟩

/-- One refinement update per word: `some v` on a field means the refinement
engine wrote `v` into that word's start (first component) or end (second
component). -/
def applyRefinement (updates : List (Option ℚ × Option ℚ)) (r : List WordTs) :
    List WordTs :=
  List.zipWith
    (fun w (u : Option ℚ × Option ℚ) =>
      { w with start := u.1.getD w.start, «end» := u.2.getD w.«end» })
    r updates

/-- The `inplace` discipline of `refine` (alignment.py lines 429-430) over an
explicit object heap: results are heap entries addressed by an index, so that
object identity is observable.  With `inplace = True` the caller's entry is
mutated and its own reference is returned; with `inplace = False` a deep copy
is appended to the heap, the copy is mutated, and the fresh reference is
returned. -/
def refineCall (inplace : Bool) (updates : List (Option ℚ × Option ℚ))
    (heap : List (List WordTs)) (ref : ℕ) : List (List WordTs) × ℕ :=
  if inplace then (heap.set ref (applyRefinement updates (heap.getD ref [])), ref)
  else (heap ++ [applyRefinement updates (heap.getD ref [])], heap.length)

/-- Search-interval invariant of the bisection state: ordered bounds and the
midpoint placed exactly where the source computes it,
`mid = min + round((max - min) / 2)`. -/
abbrev BisectInv (st : WordState) : Prop :=
  st.bmin ≤ st.bmax ∧ st.bmid = st.bmin + halfRoundI (st.bmax - st.bmin)

/-- Half-width of the search interval as the source measures it:
`round((max - min) / 2)`. -/
def hw (st : WordState) : ℤ := halfRoundI (st.bmax - st.bmin)


/-- The Python default keyword arguments of `refine`:
`abs_prob_decrease = 0.05`, `rel_prob_decrease = 0.03`,
`rel_rel_prob_decrease = None`, `prob_threshold = 0.5`, and the
`frame_precision` derived from the default `precision = 0.1`. -/
def defaultRefineParams : RefineParams := ⟨1/20, 3/100, none, 1/2, 10⟩

/-- `refine` parameters with the defaults except `precision = 0.02`, the
documented lowest precision, whose `frame_precision` is 2. -/
def cexParams : RefineParams := ⟨1/20, 3/100, none, 1/2, 2⟩

/-- A concrete inference oracle: the first probe measures probability `0.88`,
every later probe measures `0.86`; the target token's rank never regresses. -/
def driftOracle : ℕ → ℚ × Bool := fun i => if i = 0 then (22/25, false) else (43/50, false)

/-- A concrete inference oracle whose probes always measure probability 1. -/
def constOracle : ℕ → ℚ × Bool := fun _ => (1, false)

/-- A concrete initial search interval: frames 0 to 40, midpoint 20. -/
def cexStart : WordState := ⟨0, 40, 20, false, false, false, -1⟩

lemma halfRoundI_bounds (n : ℤ) (hn : 0 ≤ n) :
    n - 1 ≤ 2 * halfRoundI n ∧ 2 * halfRoundI n ≤ n + 1 ∧ 0 ≤ halfRoundI n ∧
      halfRoundI n ≤ n ∧ (n ≤ 1 → halfRoundI n = 0) := by
  unfold halfRoundI
  split
  · omega
  · split <;> omega

lemma newBounds_cases (isEnd failed : Bool) (st : WordState) :
    newBounds isEnd failed st = (st.bmin, st.bmid) ∨
      newBounds isEnd failed st = (st.bmid, st.bmax) := by
  unfold newBounds
  cases failed <;> cases isEnd <;> simp

lemma refineStepCore_finished (fp : ℕ) (isEnd failed btc : Bool) (st : WordState)
    (h : st.finished = true) : (refineStepCore fp isEnd failed btc st).1 = st := by
  unfold refineStepCore
  simp [h]

lemma refineStepCore_spec (fp : ℕ) (isEnd failed btc : Bool) (st : WordState)
    (hInv : BisectInv st) (hf : st.finished = false) :
    BisectInv (refineStepCore fp isEnd failed btc st).1 ∧
    hw (refineStepCore fp isEnd failed btc st).1 ≤ hw st ∧
    ((refineStepCore fp isEnd failed btc st).1.finished = false →
      (fp : ℤ) ≤ hw (refineStepCore fp isEnd failed btc st).1 ∧
      2 * ((refineStepCore fp isEnd failed btc st).1.bmax -
            (refineStepCore fp isEnd failed btc st).1.bmin) ≤
        (st.bmax - st.bmin) + 1) ∧
    ((refineStepCore fp isEnd failed btc st).1.finished = true →
      (refineStepCore fp isEnd failed btc st).1.bmin = st.bmin ∧
      (refineStepCore fp isEnd failed btc st).1.bmax = st.bmax) := by
  obtain ⟨hord, hmid⟩ := hInv
  have hb := halfRoundI_bounds (st.bmax - st.bmin) (by omega)
  obtain hnb | hnb := newBounds_cases isEnd failed st <;>
  · unfold refineStepCore hw
    simp only [hf, Bool.false_eq_true, if_false, hnb]
    have hb2 := halfRoundI_bounds (st.bmid - st.bmin) (by omega)
    have hb3 := halfRoundI_bounds (st.bmax - st.bmid) (by omega)
    split <;>
      simp only [BisectInv, hw] <;>
      constructor <;>
      try constructor <;> try constructor
    all_goals simp_all
    all_goals omega

lemma refineLoop_of_finished (p : RefineParams) (isEnd : Bool)
    (oracle : ℕ → ℚ × Bool) (fuel i : ℕ) (st : WordState) (og pv : ℚ)
    (h : st.finished = true) :
    refineLoop p isEnd oracle fuel i st og pv = (0, st) := by
  cases fuel <;> simp [refineLoop, h]

lemma refineStep_eq_core (p : RefineParams) (isEnd : Bool) (st : WordState)
    (og pv prob : ℚ) (btc : Bool) :
    refineStep p isEnd st og pv prob btc =
      refineStepCore p.frame_precision isEnd
        (failedRequirements p og pv prob btc) btc st := rfl

lemma refineLoop_terminates (p : RefineParams) (isEnd : Bool)
    (oracle : ℕ → ℚ × Bool) (hp : 2 ≤ p.frame_precision) :
    ∀ (fuel i : ℕ) (st : WordState) (og pv : ℚ), BisectInv st →
      (st.bmax - st.bmin).toNat < fuel →
      ((refineLoop p isEnd oracle fuel i st og pv).2).finished = true := by
  intro fuel
  induction fuel with
  | zero => intro i st og pv _ h; omega
  | succ n ih =>
    intro i st og pv hInv hfuel
    by_cases hf : st.finished = true
    · simp [refineLoop, hf]
    · have hf' : st.finished = false := by simp [hf]
      obtain ⟨hInv', hmono, hcont, hfin⟩ :=
        refineStepCore_spec p.frame_precision isEnd
          (failedRequirements p og pv (oracle i).1 (oracle i).2) (oracle i).2 st
          hInv hf'
      simp only [refineLoop, hf', Bool.false_eq_true, if_false,
        refineStep_eq_core]
      by_cases hdone :
          (refineStepCore p.frame_precision isEnd
            (failedRequirements p og pv (oracle i).1 (oracle i).2) (oracle i).2
            st).1.finished = true
      · rw [refineLoop_of_finished p isEnd oracle n (i + 1) _ _ _ hdone]
        exact hdone
      · have hdone' := Bool.eq_false_iff.mpr
          (fun h => hdone (by exact h))
        obtain ⟨hfp, hhalf⟩ := hcont (by simpa using hdone)
        apply ih
        · exact hInv'
        · have hb' := halfRoundI_bounds
            ((refineStepCore p.frame_precision isEnd
              (failedRequirements p og pv (oracle i).1 (oracle i).2) (oracle i).2
              st).1.bmax -
             (refineStepCore p.frame_precision isEnd
              (failedRequirements p og pv (oracle i).1 (oracle i).2) (oracle i).2
              st).1.bmin) (by obtain ⟨h1, _⟩ := hInv'; omega)
          simp only [hw] at hfp
          omega

lemma refineLoop_count_bound (p : RefineParams) (isEnd : Bool)
    (oracle : ℕ → ℚ × Bool) (_hp : 2 ≤ p.frame_precision) :
    ∀ (fuel i : ℕ) (st : WordState) (og pv : ℚ), BisectInv st →
      2 ≤ (refineLoop p isEnd oracle fuel i st og pv).1 →
      2 ^ (refineLoop p isEnd oracle fuel i st og pv).1 *
          ((p.frame_precision : ℤ) - 1) ≤ st.bmax - st.bmin - 1 := by
  intro fuel
  induction fuel with
  | zero => intro i st og pv _ h; simp [refineLoop] at h
  | succ n ih =>
    intro i st og pv hInv hcnt
    by_cases hf : st.finished = true
    · simp [refineLoop, hf] at hcnt
    · have hf' : st.finished = false := by simp [hf]
      set st' := (refineStep p isEnd st og pv (oracle i).1 (oracle i).2).1
        with hst'
      set og' := if st'.finished = true then og else (oracle i).1 with hog'
      set r := refineLoop p isEnd oracle n (i + 1) st' og' (oracle i).1 with hr
      have hloop : refineLoop p isEnd oracle (n + 1) i st og pv =
          (r.1 + 1, r.2) := by
        rw [hr, hog', hst']
        simp only [refineLoop, hf', Bool.false_eq_true, if_false]
      rw [hloop] at hcnt ⊢
      simp only at hcnt ⊢
      obtain ⟨hInv', hmono, hcont, hfin⟩ :=
        refineStepCore_spec p.frame_precision isEnd
          (failedRequirements p og pv (oracle i).1 (oracle i).2) (oracle i).2 st
          hInv hf'
      rw [← refineStep_eq_core, ← hst'] at hInv' hmono hcont hfin
      by_cases hdone : st'.finished = true
      · rw [hr, refineLoop_of_finished p isEnd oracle n (i + 1) _ _ _ hdone] at hcnt
        simp at hcnt
      · obtain ⟨hfp, hhalf⟩ := hcont (by simp [hdone])
        have hb' := halfRoundI_bounds (st'.bmax - st'.bmin)
          (by obtain ⟨h1, _⟩ := hInv'; omega)
        simp only [hw] at hfp
        rcases Nat.lt_or_ge r.1 2 with hsmall | hbig
        · have hone : r.1 = 1 := by omega
          rw [hone]
          have h4 : (2:ℤ) ^ (1 + 1) = 4 := by norm_num
          rw [h4]
          omega
        · have hrec := ih (i + 1) st' og' (oracle i).1 hInv' (by rw [← hr]; exact hbig)
          rw [← hr] at hrec
          rw [pow_succ]
          nlinarith [hrec, hhalf, hfp]

/-- Claim C3: for every refined word endpoint the search-interval half-width
`round((max - min) / 2)` is non-increasing across bisection iterations, the
loop terminates (any fuel beyond the initial interval width suffices), and its
iteration count `n` satisfies the logarithmic resource bound
`2 ^ n * (frame_precision - 1) ≤ initial_width - 1` whenever `n ≥ 2`; moreover
`frame_precision = max(round(precision * FRAMES_PER_SECOND), 2)` is at least
2 frames for every requested precision. -/
theorem refine_bisection_monotone_and_terminates :
    (∀ (fp : ℕ) (isEnd failed btc : Bool) (st : WordState),
        BisectInv st → st.finished = false →
        hw (refineStepCore fp isEnd failed btc st).1 ≤ hw st) ∧
    (∀ (p : RefineParams) (isEnd : Bool) (oracle : ℕ → ℚ × Bool)
        (fuel i : ℕ) (st : WordState) (og pv : ℚ),
        2 ≤ p.frame_precision → BisectInv st →
        (((st.bmax - st.bmin).toNat < fuel →
            ((refineLoop p isEnd oracle fuel i st og pv).2).finished = true) ∧
          (2 ≤ (refineLoop p isEnd oracle fuel i st og pv).1 →
            2 ^ (refineLoop p isEnd oracle fuel i st og pv).1 *
                ((p.frame_precision : ℤ) - 1) ≤ st.bmax - st.bmin - 1))) ∧
    (∀ precision : ℚ, 2 ≤ framePrecision precision) := by
  refine ⟨?_, ?_, ?_⟩
  · intro fp isEnd failed btc st hInv hf
    exact (refineStepCore_spec fp isEnd failed btc st hInv hf).2.1
  · intro p isEnd oracle fuel i st og pv hp hInv
    exact ⟨refineLoop_terminates p isEnd oracle hp fuel i st og pv hInv,
           refineLoop_count_bound p isEnd oracle hp fuel i st og pv hInv⟩
  · intro precision
    exact Nat.le_max_right _ _

/-- Witness for C3 at a concrete interval of width 8 with `frame_precision`
2: one step does not increase the half-width, and the loop finishes within
fuel 9. -/
theorem refine_bisection_monotone_and_terminates_witness :
    hw (refineStepCore 2 true false false ⟨0, 8, 4, false, false, false, -1⟩).1 ≤
      hw ⟨0, 8, 4, false, false, false, -1⟩ ∧
    ((refineLoop cexParams true constOracle 9 0 ⟨0, 8, 4, false, false, false, -1⟩
        1 1).2).finished = true :=
  ⟨refine_bisection_monotone_and_terminates.1 2 true false false
      ⟨0, 8, 4, false, false, false, -1⟩ (by decide) rfl,
   (refine_bisection_monotone_and_terminates.2.1 cexParams true constOracle 9 0
      ⟨0, 8, 4, false, false, false, -1⟩ 1 1 (by decide) (by decide)).1 (by decide)⟩

lemma failedRequirements_false_iff (p : RefineParams) (og pv r : ℚ) (btc : Bool)
    (hog : 0 < og) (hpv : 0 < pv) :
    failedRequirements p og pv r btc = false ↔
      ¬(p.abs_prob_decrease < og - r ∨
        p.rel_prob_decrease < (og - r) / og ∨
        (∃ rr, p.rel_rel_prob_decrease = some rr ∧ rr < (pv - r) / pv) ∨
        r < p.prob_threshold ∨ btc = true) := by
  unfold failedRequirements fdiv
  rw [if_neg (ne_of_gt hog), if_neg (ne_of_gt hpv)]
  cases hrr : p.rel_rel_prob_decrease with
  | none => simp [FVal.gtb]; tauto
  | some rr => simp [FVal.gtb]; tauto

lemma refineStepCore_reject (fp : ℕ) (isEnd btc : Bool) (st : WordState)
    (hf : st.finished = false)
    (hcont : (refineStepCore fp isEnd true btc st).1.finished = false) :
    (if isEnd then (refineStepCore fp isEnd true btc st).1.bmin
     else (refineStepCore fp isEnd true btc st).1.bmax) = st.bmid ∧
    (∃ lo hi, (refineStepCore fp isEnd true btc st).2 = MelAction.restore lo hi) := by
  unfold refineStepCore newBounds at hcont ⊢
  simp only [hf, Bool.false_eq_true, if_false, if_true] at hcont ⊢
  cases isEnd with
  | false =>
    by_cases hc : halfRoundI (st.bmid - st.bmin) < (fp : ℤ)
    · simp [hc] at hcont
    · simp only [hc, if_false, Bool.false_eq_true]
      exact ⟨by trivial, _, _, rfl⟩
  | true =>
    by_cases hc : halfRoundI (st.bmax - st.bmid) < (fp : ℤ)
    · simp [hc] at hcont
    · simp only [hc, if_false, if_true]
      exact ⟨by trivial, _, _, rfl⟩

lemma refineLoopSteps_succ (p : RefineParams) (isEnd : Bool)
    (oracle : ℕ → ℚ × Bool) (n i : ℕ) (st : WordState) (og pv : ℚ)
    (hf : st.finished = false) :
    refineLoopSteps p isEnd oracle (n + 1) i (st, og, pv) =
      refineLoopSteps p isEnd oracle n (i + 1)
        ((refineStep p isEnd st og pv (oracle i).1 (oracle i).2).1,
         (if (refineStep p isEnd st og pv (oracle i).1 (oracle i).2).1.finished = true
          then og else (oracle i).1),
         (oracle i).1) := by
  simp only [refineLoopSteps, hf, Bool.false_eq_true, if_false]

/-- Claim C2 (amended): in each bisection iteration the probe is accepted if
and only if none of the rejection conditions holds for the reference values
the loop actually carries — the drop from the current `orig_probs` slot,
the drop from the previous probe, the probability threshold, and the
rank-regression flag; on a rejection that continues, the opposite bound moves
inward to the midpoint and the muted audio of that half is restored.  The
reference slot equals the true baseline only on a word's first iteration:
whenever an iteration continues, the loop stores this probe's probability into
the shared `orig_probs` array, so later drops are measured against the
previous iteration rather than the baseline. -/
theorem refine_accept_characterization :
    (∀ (p : RefineParams) (og pv r : ℚ) (btc : Bool), 0 < og → 0 < pv →
      (failedRequirements p og pv r btc = false ↔
        ¬(p.abs_prob_decrease < og - r ∨
          p.rel_prob_decrease < (og - r) / og ∨
          (∃ rr, p.rel_rel_prob_decrease = some rr ∧ rr < (pv - r) / pv) ∨
          r < p.prob_threshold ∨ btc = true))) ∧
    (∀ (p : RefineParams) (isEnd : Bool) (st : WordState) (og pv r : ℚ)
        (btc : Bool), st.finished = false →
      failedRequirements p og pv r btc = true →
      (refineStep p isEnd st og pv r btc).1.finished = false →
      ((if isEnd then (refineStep p isEnd st og pv r btc).1.bmin
        else (refineStep p isEnd st og pv r btc).1.bmax) = st.bmid ∧
       (∃ lo hi, (refineStep p isEnd st og pv r btc).2 = MelAction.restore lo hi))) ∧
    (∀ (p : RefineParams) (isEnd : Bool) (oracle : ℕ → ℚ × Bool) (n i : ℕ)
        (st : WordState) (og pv : ℚ), st.finished = false →
      (refineStep p isEnd st og pv (oracle i).1 (oracle i).2).1.finished = false →
      refineLoopSteps p isEnd oracle (n + 1) i (st, og, pv) =
        refineLoopSteps p isEnd oracle n (i + 1)
          ((refineStep p isEnd st og pv (oracle i).1 (oracle i).2).1,
           (oracle i).1, (oracle i).1)) := by
  refine ⟨?_, ?_, ?_⟩
  · intro p og pv r btc hog hpv
    exact failedRequirements_false_iff p og pv r btc hog hpv
  · intro p isEnd st og pv r btc hf hfail hcont
    rw [refineStep_eq_core, hfail] at hcont ⊢
    exact refineStepCore_reject p.frame_precision isEnd btc st hf hcont
  · intro p isEnd oracle n i st og pv hf hcont
    rw [refineLoopSteps_succ p isEnd oracle n i st og pv hf]
    rw [if_neg (by rw [hcont]; exact Bool.false_ne_true)]

/-- Counterexample for C2 as stated: with the default thresholds (at
precision 0.02), baseline probability `0.9` and measured probabilities `0.88`
then `0.86`, the second probe's drop relative to the baseline is
`0.04 / 0.9 > rel_prob_decrease = 0.03`, so the claim requires rejection (no
other condition blocks acceptance and the absolute drop is within bounds) —
yet after two loop iterations the code has tightened `max_ends` to frame 10,
i.e. it accepted the probe, because the `orig_probs` slot had been overwritten
with `0.88` by the first iteration. -/
theorem refine_baseline_drift_counterexample :
    (refineLoopSteps cexParams true driftOracle 2 0 (cexStart, 9/10, 9/10)).1.bmin = 0 ∧
    (refineLoopSteps cexParams true driftOracle 2 0 (cexStart, 9/10, 9/10)).1.bmax = 10 ∧
    (refineLoopSteps cexParams true driftOracle 2 0 (cexStart, 9/10, 9/10)).2.1 = 43/50 ∧
    cexParams.rel_prob_decrease < ((9:ℚ)/10 - 43/50) / (9/10) ∧
    ¬(cexParams.abs_prob_decrease < (9:ℚ)/10 - 43/50) ∧
    ¬((43:ℚ)/50 < cexParams.prob_threshold) ∧
    framePrecision (1/50) = 2 := by
  refine ⟨?_, ?_, ?_, ?_, ?_, ?_, ?_⟩ <;>
    norm_num [refineLoopSteps, refineStep, refineStepCore, failedRequirements,
      fdiv, FVal.gtb, newBounds, halfRoundI, cexParams, cexStart, driftOracle,
      framePrecision, roundHalfEven, ratFloor, FRAMES_PER_SECOND]
  decide

/-- Witness for C2 at concrete inputs: with unit thresholds, zero probability
threshold, baseline and probe probability 1, no condition fails and the probe
is accepted. -/
theorem refine_accept_characterization_witness :
    failedRequirements ⟨1, 1, none, 0, 2⟩ 1 1 1 false = false :=
  (refine_accept_characterization.1 ⟨1, 1, none, 0, 2⟩ 1 1 1 false
      (by decide) (by decide)).mpr
    (by
      rintro (h | h | ⟨rr, hrr, -⟩ | h | h)
      · norm_num at h
      · norm_num at h
      · cases hrr
      · norm_num at h
      · cases h)

lemma fdiv_zero_den (a : ℚ) :
    fdiv a 0 = if a = 0 then FVal.nan else if 0 < a then FVal.pinf else FVal.ninf := by
  unfold fdiv
  rw [if_pos rfl]

lemma FVal.gtb_fdiv_zero (a c : ℚ) (ha : a ≤ 0) : FVal.gtb (fdiv a 0) c = false := by
  rw [fdiv_zero_den]
  rcases eq_or_lt_of_le ha with hz | hneg
  · rw [if_pos hz]
    rfl
  · rw [if_neg (ne_of_lt hneg), if_neg (not_lt.mpr (le_of_lt hneg))]
    rfl

/-- Counterexample for C5 as stated: with the default thresholds, a word whose
baseline probability is exactly zero and whose probed probability is
`0.6 ≥ prob_threshold` is NOT automatically rejected — the ratio against the
zero baseline is a non-finite float whose comparisons are all false, the
absolute drop is negative, and the probability clears the threshold, so
`failed_requirements` is false and the probe is accepted (for an end timestamp
the max bound tightens to the midpoint). -/
theorem refine_zero_baseline_accepts :
    failedRequirements defaultRefineParams 0 0 (3/5) false = false ∧
    (refineStep defaultRefineParams true cexStart 0 0 (3/5) false).1.bmax = 20 := by
  constructor <;>
    norm_num [refineStep, refineStepCore, failedRequirements, fdiv, FVal.gtb,
      newBounds, halfRoundI, defaultRefineParams, cexStart]

/-- Claim C5 (amended): a zero baseline probability never produces a division
fault — the division is total and yields a non-finite value (`nan` for `0/0`,
a signed infinity otherwise) whose threshold comparisons are all false — so
with a zero baseline (and hence zero previous-probe reference on the first
iteration) the candidate is rejected exactly when its own probability falls
below `prob_threshold` or the target token's rank regressed; it is NOT
automatically rejected. -/
theorem refine_zero_baseline_guarded :
    ∀ (p : RefineParams) (prob : ℚ) (btc : Bool),
      0 ≤ prob → 0 ≤ p.abs_prob_decrease →
      failedRequirements p 0 0 prob btc =
        (decide (prob < p.prob_threshold) || btc) := by
  intro p prob btc hprob habs
  unfold failedRequirements
  rw [FVal.gtb_fdiv_zero (0 - prob) p.rel_prob_decrease (by linarith)]
  have h1 : decide (p.abs_prob_decrease < 0 - prob) = false :=
    decide_eq_false (by intro h; linarith)
  rw [h1]
  cases hrr : p.rel_rel_prob_decrease with
  | none => simp
  | some rr =>
    simp [FVal.gtb_fdiv_zero (0 - prob) rr (by linarith),
      FVal.gtb_fdiv_zero (-prob) rr (by linarith)]

/-- Witness for C5 at concrete inputs: with zero baseline, probe probability 1
and threshold 1, rejection is exactly `prob < prob_threshold` (here false). -/
theorem refine_zero_baseline_guarded_witness :
    failedRequirements ⟨1, 1, none, 1, 2⟩ 0 0 1 false =
      (decide ((1:ℚ) < 1) || false) :=
  refine_zero_baseline_guarded ⟨1, 1, none, 1, 2⟩ 1 false (by decide) (by decide)

/-- Claim C1 (code bug): `update_ts` only assigns the refined timestamp when
`verbose` is truthy — the `if not verbose: return` guard sits before the
assignment, so with the default `verbose=False` a finished endpoint whose
candidate frame 50 was accepted is NOT written back, while the identical state
with `verbose=True` writes `0.5`; the spec requires the write irrespective of
verbosity. -/
theorem update_ts_requires_verbose :
    update_ts false false 0 ⟨0, 100, 50, true, false, true, 50⟩ ⟨1/5, 2, 9/10⟩ = none ∧
    update_ts true false 0 ⟨0, 100, 50, true, false, true, 50⟩ ⟨1/5, 2, 9/10⟩ =
      some (1/2) := by
  constructor <;>
    norm_num [update_ts, round3, roundHalfEven, ratFloor, FRAMES_PER_SECOND]

/-- Counterexample for C4 as stated: a start endpoint that finished with an
accepted midpoint (changes row `[0, 1, 60]`) is written back as `0.6`, later
than the word's original start `0.2` — refine does move a start later than the
original when some probe was accepted, which is its documented purpose. -/
theorem update_ts_moves_start_later :
    update_ts true false 0 ⟨0, 100, 60, true, false, true, 60⟩ ⟨1/5, 2, 9/10⟩ =
      some (3/5) ∧
    (1/5 : ℚ) < 3/5 := by
  constructor <;>
    norm_num [update_ts, round3, roundHalfEven, ratFloor, FRAMES_PER_SECOND]


/-- Claim C4 (amended): the outward-only guard of `update_ts` applies exactly
when at least one probe was rejected and none was accepted
(`changes[idx,0] and not changes[idx,1]`): in that case the recorded candidate
is written only if it moves the end strictly later (for an end timestamp) or
the start strictly earlier (for a start timestamp) than the current value, so
that dropping the candidate — no net movement — is a valid finished outcome.
When some probe was accepted the candidate is written unconditionally
(verbosity permitting) and may move the start later or the end earlier. -/
theorem update_ts_outward_guard :
    ∀ (verbose isEnd : Bool) (timeOffset : ℚ) (st : WordState) (w : WordTs)
      (v : ℚ), st.changeFailed = true → st.changeAccepted = false →
      update_ts verbose isEnd timeOffset st w = some v →
      ((isEnd = true → w.«end» < v) ∧ (isEnd = false → v < w.start)) := by
  intro verbose isEnd timeOffset st w v hcf hca hwrite
  by_cases h1 : st.finished = false ∨ st.lastMid = -1
  · simp [update_ts, h1] at hwrite
  · cases isEnd with
    | true =>
      refine ⟨fun _ => ?_, fun h => Bool.noConfusion h⟩
      by_cases hle : round3 (timeOffset + (st.lastMid : ℚ) /
          (FRAMES_PER_SECOND : ℚ)) ≤ w.«end»
      · simp [update_ts, h1, hcf, hca, hle] at hwrite
      · simp [update_ts, h1, hcf, hca, hle] at hwrite
        rw [← hwrite.2]
        exact lt_of_not_le hle
    | false =>
      refine ⟨fun h => Bool.noConfusion h, fun _ => ?_⟩
      by_cases hle : w.start ≤ round3 (timeOffset + (st.lastMid : ℚ) /
          (FRAMES_PER_SECOND : ℚ))
      · simp [update_ts, h1, hcf, hca, hle] at hwrite
      · simp [update_ts, h1, hcf, hca, hle] at hwrite
        rw [← hwrite.2]
        exact lt_of_not_le hle

/-- Witness for C4 at a concrete all-rejections state: the theorem applied to
the written value `0.4` forces the original end `0.3` to be strictly
earlier. -/
theorem update_ts_outward_guard_witness : (3/10 : ℚ) < 2/5 :=
  (update_ts_outward_guard true true 0 ⟨0, 100, 40, true, true, false, 40⟩
      ⟨1/10, 3/10, 1⟩ (2/5) rfl rfl
      (by norm_num [update_ts, round3, roundHalfEven, ratFloor,
        FRAMES_PER_SECOND])).1 rfl

lemma getCurrWordsAux_isPrefixOf (tokenStep : ℕ) :
    ∀ (l : List ℕ) (curr : ℕ) (ne : Bool),
      ∃ t, getCurrWordsAux tokenStep curr ne l ++ t = l := by
  intro l
  induction l with
  | nil => intro curr ne; exact ⟨[], rfl⟩
  | cons c rest ih =>
    intro curr ne
    unfold getCurrWordsAux
    split
    · exact ⟨c :: rest, rfl⟩
    · obtain ⟨t, ht⟩ := ih (curr + c) true
      exact ⟨t, by simp [ht]⟩

lemma getCurrWordsAux_budget (tokenStep : ℕ) :
    ∀ (l : List ℕ) (curr : ℕ), curr ≤ tokenStep →
      curr + (getCurrWordsAux tokenStep curr true l).sum ≤ tokenStep := by
  intro l
  induction l with
  | nil => intro curr h; simpa [getCurrWordsAux]
  | cons c rest ih =>
    intro curr h
    unfold getCurrWordsAux
    split
    · simpa
    · rename_i hc
      have hc' : curr + c ≤ tokenStep := by
        rcases Nat.lt_or_ge tokenStep (curr + c) with h' | h'
        · exact absurd ⟨h', rfl⟩ hc
        · exact h'
      have := ih (curr + c) hc'
      simp only [List.sum_cons]
      omega

lemma getCurrWordsAux_maximal (tokenStep : ℕ) :
    ∀ (l : List ℕ) (curr : ℕ) (k : ℕ),
      (getCurrWordsAux tokenStep curr true l).length < k → k ≤ l.length →
      tokenStep < curr + (l.take k).sum := by
  intro l
  induction l with
  | nil => intro curr k h1 h2; simp at h2; omega
  | cons c rest ih =>
    intro curr k h1 h2
    unfold getCurrWordsAux at h1
    split at h1
    · rename_i hc
      obtain ⟨hlt, -⟩ := hc
      obtain ⟨k', rfl⟩ : ∃ k', k = k' + 1 := by
        cases k with
        | zero => simp at h1
        | succ k' => exact ⟨k', rfl⟩
      simp only [List.take_succ_cons, List.sum_cons]
      omega
    · obtain ⟨k', rfl⟩ : ∃ k', k = k' + 1 := by
        cases k with
        | zero => simp at h1
        | succ k' => exact ⟨k', rfl⟩
      simp only [List.length_cons] at h1
      have := ih (curr + c) k' (by omega) (by simpa using h2)
      simp only [List.take_succ_cons, List.sum_cons]
      omega

/-- Claim C6: on each windowing iteration `get_curr_words` selects a prefix of
the pending-word queue; at least one word is always selected; the selection's
combined token count stays within `token_step` unless it is that single first
word; and the selection is the longest such prefix — every strictly longer
prefix overshoots the budget. -/
theorem align_token_budget :
    ∀ (tokenStep : ℕ) (counts : List ℕ), counts ≠ [] →
      (∃ t, get_curr_words tokenStep counts ++ t = counts) ∧
      1 ≤ (get_curr_words tokenStep counts).length ∧
      ((get_curr_words tokenStep counts).sum ≤ tokenStep ∨
        (get_curr_words tokenStep counts).length = 1) ∧
      (∀ k, (get_curr_words tokenStep counts).length < k → k ≤ counts.length →
        tokenStep < (counts.take k).sum) := by
  intro tokenStep counts hne
  obtain ⟨c, rest, rfl⟩ : ∃ c rest, counts = c :: rest := by
    cases counts with
    | nil => exact absurd rfl hne
    | cons c rest => exact ⟨c, rest, rfl⟩
  have hhead : get_curr_words tokenStep (c :: rest) =
      c :: getCurrWordsAux tokenStep c true rest := by
    show getCurrWordsAux tokenStep 0 false (c :: rest) = _
    rw [getCurrWordsAux, if_neg (by simp)]
    norm_num
  refine ⟨getCurrWordsAux_isPrefixOf tokenStep (c :: rest) 0 false, ?_, ?_, ?_⟩
  · rw [hhead]; simp
  · rcases le_or_lt c tokenStep with hc | hc
    · left
      rw [hhead]
      simpa using getCurrWordsAux_budget tokenStep rest c hc
    · right
      rw [hhead]
      have : getCurrWordsAux tokenStep c true rest = [] := by
        cases rest with
        | nil => rfl
        | cons d r' =>
          unfold getCurrWordsAux
          rw [if_pos ⟨by omega, rfl⟩]
      rw [this]
      rfl
  · intro k hk1 hk2
    rw [hhead] at hk1
    simp only [List.length_cons] at hk1
    obtain ⟨k', rfl⟩ : ∃ k', k = k' + 1 := by
      cases k with
      | zero => omega
      | succ k' => exact ⟨k', rfl⟩
    have := getCurrWordsAux_maximal tokenStep rest c k' (by omega)
      (by simpa using hk2)
    simp only [List.take_succ_cons, List.sum_cons]
    omega

/-- Witness for C6 at `token_step = 5` and token counts `[2, 2, 3]`: at least
one word is selected, and the prefix of length 3 exceeds the budget. -/
theorem align_token_budget_witness :
    1 ≤ (get_curr_words 5 [2, 2, 3]).length ∧ 5 < ([2, 2, 3].take 3).sum :=
  ⟨(align_token_budget 5 [2, 2, 3] (by decide)).2.1,
   (align_token_budget 5 [2, 2, 3] (by decide)).2.2.2 3 (by decide) (by decide)⟩

/-- Counterexample for C7 as stated: a mode-2 probe whose estimate (2 s)
repeats the previous probe's estimate, far from the end of a 10,000,000-sample
audio with the match cap disabled (`count = 0`), sets the cursor to the total
sample count — terminating the whole search — rather than advancing it by one
full chunk as the claim states. -/
theorem locate_mode2_stall_ends_search :
    (locateMode2Step 10000000 0 ⟨0, 0, some 2⟩ 2).1.seekSample = 10000000 ∧
    (10000000 : ℤ) ≠ 0 + CHUNK_SAMPLES := by
  constructor
  · norm_num [locateMode2Step]
  · norm_num [CHUNK_SAMPLES]

/-- Claim C7 (amended): every mode-2 probe returns the unconfirmed estimate
offset by the window seek and counts as a find; when the estimate repeats, the
match cap is reached, or the chunk already reaches the end of the audio, the
cursor is set to the end of the audio (ending the search); otherwise it
advances by `round(target_end * SAMPLE_RATE)` samples. -/
theorem locate_mode2_step_spec :
    ∀ (totalSamples : ℤ) (count : ℕ) (st : Mode2State) (targetEnd : ℚ),
      ((totalSamples ≤ st.seekSample + CHUNK_SAMPLES ∨
          (count ≠ 0 ∧ count ≤ st.found + 1) ∨
          st.prevTargetEnd = some targetEnd) →
        (locateMode2Step totalSamples count st targetEnd).1.seekSample =
          totalSamples) ∧
      (¬(totalSamples ≤ st.seekSample + CHUNK_SAMPLES ∨
          (count ≠ 0 ∧ count ≤ st.found + 1) ∨
          st.prevTargetEnd = some targetEnd) →
        (locateMode2Step totalSamples count st targetEnd).1.seekSample =
          st.seekSample + roundHalfEven (targetEnd * (SAMPLE_RATE : ℚ))) ∧
      ((locateMode2Step totalSamples count st targetEnd).2 =
        targetEnd + round3 ((st.seekSample : ℚ) / (SAMPLE_RATE : ℚ))) ∧
      ((locateMode2Step totalSamples count st targetEnd).1.found =
        st.found + 1) ∧
      ((locateMode2Step totalSamples count st targetEnd).1.prevTargetEnd =
        some targetEnd) := by
  intro totalSamples count st targetEnd
  refine ⟨fun h => ?_, fun h => ?_, rfl, rfl, rfl⟩
  · simp only [locateMode2Step, if_pos h]
  · simp only [locateMode2Step, if_neg h]

/-- Witness for C7 at concrete inputs: a repeated estimate jumps the cursor to
the end of the audio, and a fresh estimate advances it by
`round(2 * 16000) = 32000` samples. -/
theorem locate_mode2_step_spec_witness :
    (locateMode2Step 10000000 0 ⟨0, 0, some 2⟩ 2).1.seekSample = 10000000 ∧
    (locateMode2Step 10000000 0 ⟨0, 0, some 1⟩ 2).1.seekSample =
      0 + roundHalfEven (2 * (SAMPLE_RATE : ℚ)) :=
  ⟨(locate_mode2_step_spec 10000000 0 ⟨0, 0, some 2⟩ 2).1
      (Or.inr (Or.inr rfl)),
   (locate_mode2_step_spec 10000000 0 ⟨0, 0, some 1⟩ 2).2.1 (by decide)⟩

/-- Counterexample for C8 as stated: with `eots = 1`, a first terminator
raises the counter to the limit and the loop continues (emitting the best
non-terminator instead); a following non-terminator then also continues even
though the counter had reached the limit — and a confirmed match
(`found_target`) likewise does not halt the loop on a non-terminator token.
So the decode loop does continue past both the counter reaching `eots` and the
match reaching CONFIRMED. -/
theorem locate_decode_continues_past :
    locateDecodeStep 1 20 ⟨0, 0, true, false⟩ false true false =
      ⟨1, 1, true, false⟩ ∧
    (locateDecodeStep 1 20 ⟨1, 1, true, false⟩ false false false).notEnd = true ∧
    (locateDecodeStep 1 20 ⟨0, 1, true, true⟩ false false false).notEnd = true := by
  refine ⟨?_, ?_, ?_⟩ <;> decide

/-- Claim C8 (amended): in the confirmation-decode loop, the continuation flag
stays true exactly when the step is not a terminator produced while the
counter has already reached `eots` or the match is CONFIRMED, and the
prediction count has not exceeded `max_token_per_seg`; a terminator that does
not halt increments the consecutive-terminator counter, while non-terminator
and accepted tokens reset it to zero. -/
theorem locate_decode_halt_characterization :
    ∀ (eots cap : ℕ) (st : DecodeState) (acc eot fnd : Bool),
      ((locateDecodeStep eots cap st acc eot fnd).notEnd = true ↔
        (¬((acc && !st.foundTarget) = false ∧ eot = true ∧
            (eots ≤ st.currEots ∨ st.foundTarget = true)) ∧
         st.predLen + 1 ≤ cap)) ∧
      ((acc && !st.foundTarget) = false → eot = true → st.currEots < eots →
        st.foundTarget = false →
        (locateDecodeStep eots cap st acc eot fnd).currEots = st.currEots + 1) ∧
      ((acc && !st.foundTarget) = false → eot = false →
        (locateDecodeStep eots cap st acc eot fnd).currEots = 0) ∧
      ((acc && !st.foundTarget) = true →
        (locateDecodeStep eots cap st acc eot fnd).currEots = 0) := by
  intro eots cap st acc eot fnd
  refine ⟨?_, ?_, ?_, ?_⟩
  · unfold locateDecodeStep
    rcases hacc : acc && !st.foundTarget with _ | _ <;>
      rcases heot : eot with _ | _ <;>
        simp [hacc, heot]
  · intro hacc heot hlt hft
    simp only [hft, Bool.not_false, Bool.and_true] at hacc
    unfold locateDecodeStep
    simp [hacc, heot, hft, Nat.not_le.mpr hlt]
  · intro hacc heot
    unfold locateDecodeStep
    simp [hacc, heot]
  · intro hacc
    unfold locateDecodeStep
    simp [hacc]

/-- Witness for C8 at concrete inputs: a terminator at counter 0 with
`eots = 2` increments the counter to 1. -/
theorem locate_decode_halt_witness :
    (locateDecodeStep 2 20 ⟨0, 0, true, false⟩ false true false).currEots = 0 + 1 :=
  (locate_decode_halt_characterization 2 20 ⟨0, 0, true, false⟩
      false true false).2.1 rfl rfl (by decide) rfl

/-- Claim C9: with `inplace = False`, `refine` deep-copies the result before
any mutation, so the caller's object — every word's start, end and
probability — is unchanged and the returned reference is a different object
carrying the refined words; with `inplace = True` the returned reference is
the caller's own object, now carrying the refined words. -/
theorem refine_inplace_frame :
    ∀ (inplace : Bool) (updates : List (Option ℚ × Option ℚ))
      (heap : List (List WordTs)) (ref : ℕ), ref < heap.length →
      ((inplace = false →
        (refineCall false updates heap ref).1.getD ref [] = heap.getD ref [] ∧
        (refineCall false updates heap ref).2 ≠ ref ∧
        (refineCall false updates heap ref).1.getD
            ((refineCall false updates heap ref).2) [] =
          applyRefinement updates (heap.getD ref [])) ∧
       (inplace = true →
        (refineCall true updates heap ref).2 = ref ∧
        (refineCall true updates heap ref).1.getD ref [] =
          applyRefinement updates (heap.getD ref []))) := by
  intro inplace updates heap ref href
  constructor
  · intro _
    refine ⟨?_, ?_, ?_⟩
    · show (heap ++ [applyRefinement updates (heap.getD ref [])]).getD ref [] = _
      rw [List.getD_eq_getElem?_getD, List.getD_eq_getElem?_getD,
        List.getElem?_append, if_pos href]
    · show heap.length ≠ ref
      omega
    · show (heap ++ [applyRefinement updates (heap.getD ref [])]).getD
          heap.length [] = _
      rw [List.getD_eq_getElem?_getD, List.getElem?_append, if_neg (by omega)]
      simp
  · intro _
    refine ⟨rfl, ?_⟩
    show (heap.set ref (applyRefinement updates (heap.getD ref []))).getD
        ref [] = _
    rw [List.getD_eq_getElem?_getD]
    simp [List.getElem?_set, href]

/-- Witness for C9 on a one-element heap: the non-inplace call returns a fresh
reference and the inplace call returns the caller's reference. -/
theorem refine_inplace_frame_witness :
    (refineCall false [] [[⟨0, 1, 1⟩]] 0).2 ≠ 0 ∧
    (refineCall true [] [[⟨0, 1, 1⟩]] 0).2 = 0 :=
  ⟨((refine_inplace_frame false [] [[⟨0, 1, 1⟩]] 0 (by decide)).1 rfl).2.1,
   ((refine_inplace_frame true [] [[⟨0, 1, 1⟩]] 0 (by decide)).2 rfl).1⟩

/-- Claim C10: for `token_step ≥ 1`, `align` raises `ValueError` exactly when
`token_step` exceeds `n_text_ctx - 6`; a `token_step` below 1 is not an error
and is silently replaced by that maximum before alignment begins. -/
theorem align_token_step_validation :
    ∀ nTextCtx tokenStep : ℤ,
      (1 ≤ tokenStep →
        (isValueError (alignTokenStepCheck nTextCtx tokenStep) = true ↔
          nTextCtx - 6 < tokenStep)) ∧
      (tokenStep < 1 →
        alignTokenStepCheck nTextCtx tokenStep = Except.ok (nTextCtx - 6)) := by
  intro nTextCtx tokenStep
  constructor
  · intro h1
    unfold alignTokenStepCheck
    rw [if_neg (by omega)]
    by_cases h2 : nTextCtx - 6 < tokenStep
    · rw [if_pos h2]
      simpa [isValueError]
    · rw [if_neg h2]
      simp only [isValueError]
      constructor
      · intro h
        cases h
      · intro h
        exact absurd h h2
  · intro h1
    unfold alignTokenStepCheck
    rw [if_pos h1]

/-- Witness for C10 at `n_text_ctx = 448`: `token_step = 500` raises the
`ValueError` and `token_step = 0` is replaced by the maximum `442`. -/
theorem align_token_step_validation_witness :
    isValueError (alignTokenStepCheck 448 500) = true ∧
    alignTokenStepCheck 448 0 = Except.ok (448 - 6) :=
  ⟨((align_token_step_validation 448 500).1 (by decide)).mpr (by decide),
   (align_token_step_validation 448 0).2 (by decide)⟩
